import Mathlib

/-!
Verification of the rclamp filesystem discovery and naming engine.

This file gives a shallow embedding of the core of the `rclamp` repository
(`src/workfiles.rs`, `src/tasks.rs`, `src/projects.rs`, `src/app.rs`) and
proves or refutes the frozen claims about it.

Modelling conventions:
* Rust `String` values are modelled as `List Char` (`Str`).  Rust compares
  strings byte-wise over UTF-8, which coincides with code-point order, so the
  `Char`-level order is faithful.  Rust's `String::len`/`drain` act on byte
  indices; on ASCII data (the domain of every concrete input used below) byte
  indices and character indices coincide.
* Paths are modelled as plain strings over the Unix separator `/`.  The model
  of `Path::file_name`/`extension`/`file_stem`/`parent` is faithful for
  normalised relative paths whose final component is an ordinary file name
  (no trailing separator, no `..` final component, no repeated separators);
  every path appearing in a theorem below is of that shape.
* The filesystem is modelled explicitly: as an association list of
  (path, content) pairs for the copy operations, and as a tree of named nodes
  for the directory walks.  `fs::read_dir` failure is modelled by a `Bool`
  readability flag (an unreadable directory is fully inaccessible, so a
  `Path::exists` probe inside it is modelled as `false`).
* `Vec::sort` is a stable sort producing a sorted permutation; for the total
  orders used here this output is unique, so it is modelled by
  `List.insertionSort` (also a stable sort).
-/

namespace Rclamp

/-- Rust strings, modelled as lists of characters. -/
abbrev Str := List Char

/-! ### Decimal formatting (Rust `format!("{:03}", v)`) and `u32::parse` -/

/-- The ASCII digit for a value below ten (Rust's decimal formatter emits
exactly these digits). -/
def digitChar : Nat → Char
  | 0 => '0' | 1 => '1' | 2 => '2' | 3 => '3' | 4 => '4'
  | 5 => '5' | 6 => '6' | 7 => '7' | 8 => '8' | 9 => '9'
  | _ => '?'

/-- Decimal digit rendering with explicit fuel (one unit of fuel is spent
per digit, so `n + 1` units always suffice); structural recursion keeps the
definition reducible by the kernel. -/
def natDigitsAux : Nat → Nat → Str
  | _, 0 => []
  | n, fuel + 1 =>
    if n < 10 then [digitChar n]
    else natDigitsAux (n / 10) fuel ++ [digitChar (n % 10)]

/-- Decimal digit string of a natural number (most significant digit first),
as produced by Rust's `Display` for unsigned integers. -/
def natDigits (n : Nat) : Str :=
  natDigitsAux n (n + 1)

/-- Rust `format!("{:03}", v)`: the decimal digits of `v`, left-padded with
zeros to width three. -/
def pad3 (v : Nat) : Str :=
  let ds := natDigits v
  List.replicate (3 - ds.length) '0' ++ ds

/-- Rust `char::is_ascii_digit`. -/
def charIsDigit (c : Char) : Bool :=
  48 ≤ c.toNat && c.toNat ≤ 57

/-- Accumulate a digit string into a value, as `u32::from_str` does. -/
def digitsToNat (l : Str) : Nat :=
  l.foldl (fun a c => a * 10 + (c.toNat - 48)) 0

/-- Model of Rust `str::parse::<u32>`: an optional leading `+`, then at least
one ASCII digit, value below `2 ^ 32`. -/
def parseU32 (s : Str) : Option Nat :=
  let s' := match s with
    | c :: rest => if c = '+' then rest else s
    | [] => s
  if s' ≠ [] ∧ s'.all charIsDigit then
    let n := digitsToNat s'
    if n < 2 ^ 32 then some n else none
  else none

/-! ### Path operations (std `Path`, Unix, normalised relative paths) -/

/-- Model of `Path::file_name().unwrap_or("")`: the part of the path after the
last separator. -/
def fileName (p : Str) : Str :=
  (p.reverse.takeWhile (fun c => c != '/')).reverse

/-- Model of std's `split_file_at_dot`: split a file name at the last dot,
provided that dot is not the leading character; the file name `..` is special
cased.  Returns (stem, optional extension). -/
def splitFileAtDot (f : Str) : Str × Option Str :=
  if f = ['.', '.'] then (f, none)
  else
    let tailRev := f.reverse.takeWhile (fun c => c != '.')
    if tailRev.length = f.length then (f, none)
    else
      let i := f.length - 1 - tailRev.length
      if 1 ≤ i then (f.take i, some (f.drop (i + 1))) else (f, none)

/-- Model of `Path::extension().unwrap_or("")`. -/
def extensionOf (p : Str) : Str :=
  ((splitFileAtDot (fileName p)).2).getD []

/-- Model of `Path::file_stem().unwrap_or("")`. -/
def fileStemOf (p : Str) : Str :=
  (splitFileAtDot (fileName p)).1

/-- Model of `Path::parent` for normalised relative paths: `none` for the
empty or root path, otherwise the path with its final component and separator
removed (the empty string for a single-component path, as in Rust). -/
def parentOf (p : Str) : Option Str :=
  if p = [] ∨ p = ['/'] then none
  else some (p.take (p.length - (fileName p).length - 1))

/-- Model of `PathBuf::push` with a relative file-name argument. -/
def pathPush (dir nm : Str) : Str :=
  if dir = [] then nm
  else if dir.getLast? = some '/' then dir ++ nm
  else dir ++ '/' :: nm

/-- One step of splitting a string at separators, used right-to-left. -/
def splitPathAux (c : Char) (acc : List Str) : List Str :=
  if c = '/' then [] :: acc
  else match acc with
    | [] => [[c]]
    | comp :: comps => (c :: comp) :: comps

/-- Components of a path (model of `Path::components` for relative paths):
the separator-delimited non-empty segments. -/
def splitPath (p : Str) : List Str :=
  (p.foldr splitPathAux []).filter (fun comp => comp ≠ [])

/-! ### The workfile record (`workfiles.rs`, `struct File`) -/

/-- Represents a workfile found on drive (`workfiles.rs` lines 11-17).
Field order matches the Rust declaration: `name`, `path`, `extension`,
`version`; the derived `Ord` compares the fields in this order. -/
structure File where
  name : Str
  path : Str
  extension : Str
  version : Nat
deriving DecidableEq

/-- `File::fmt_version`: the version in the format `v###`. -/
def File.fmt_version (f : File) : Str :=
  'v' :: pad3 f.version

/-- `File::make_filename_from_self`: `format!("{}_{}.{}", name, fmt_version, extension)`. -/
def File.make_filename_from_self (f : File) : Str :=
  f.name ++ '_' :: (f.fmt_version ++ '.' :: f.extension)

/-- `File::from_path` (`workfiles.rs` lines 26-63).  The source declares
`version_offset` in both arms of an `if`; the embedding uses the branch
values (`len - 5` when the stem is longer than five characters, else `0`).
The two `nth` probes default to `'0'` and the version parse defaults to `1`,
exactly as the `unwrap_or` calls in the source do. -/
def File.from_path (path : Str) : Except String File :=
  let extension := extensionOf path
  let stem := fileStemOf path
  let version_offset := if stem.length > 5 then stem.length - 5 else 0
  let version_string := stem.drop version_offset
  let name := stem.take version_offset
  if (version_string.getD 0 '0' == '_') && (version_string.getD 1 '0' == 'v') then
    let version := (parseU32 (version_string.drop 2)).getD 1
    Except.ok { name := name, path := path, extension := extension, version := version }
  else
    Except.error "Not a valid filename."

/-- Decidable equality of `Except` results, for evaluating the codec on
concrete inputs. -/
instance {ε α : Type} [DecidableEq ε] [DecidableEq α] : DecidableEq (Except ε α) :=
  fun a b =>
    match a, b with
    | Except.ok x, Except.ok y =>
      if h : x = y then isTrue (by rw [h]) else isFalse (by simp [h])
    | Except.error x, Except.error y =>
      if h : x = y then isTrue (by rw [h]) else isFalse (by simp [h])
    | Except.ok _, Except.error _ => isFalse (by simp)
    | Except.error _, Except.ok _ => isFalse (by simp)

/-! ### Filesystem model for the copy operations -/

/-- Errors surfaced by the embedded filesystem operations, mirroring the
`io::Error` values constructed in the source. -/
inductive IoErr where
  | other : String → IoErr
  | notFound : IoErr
  | readDirFailed : Str → IoErr
deriving DecidableEq

/-- A flat filesystem: an association list from paths to file contents. -/
structure FS where
  files : List (Str × List Nat)
deriving DecidableEq

/-- Whether a path exists / its content (model of `try_exists` and the
source side of `fs::copy`). -/
def FS.lookup (fs : FS) (p : Str) : Option (List Nat) :=
  List.lookup p fs.files

/-- `File::version_up` (`workfiles.rs` lines 89-127), in state-passing style:
the returned pair is (Rust return value, filesystem after the call).
`try_exists` is modelled as never failing (the model has total knowledge of
the flat filesystem); `fs::copy` fails iff the source path is absent and
otherwise writes the source bytes at the destination. -/
def File.version_up (fs : FS) (f : File) : Except IoErr Unit × FS :=
  let new_version : File := { f with version := f.version + 1 }
  match parentOf f.path with
  | none => (Except.error (IoErr.other "Failed to extract parent/dirname."), fs)
  | some par =>
    let new_path := pathPush par new_version.make_filename_from_self
    match fs.lookup new_path with
    | some _ => (Except.error (IoErr.other "File already exists!"), fs)
    | none =>
      match fs.lookup f.path with
      | none => (Except.error IoErr.notFound, fs)
      | some bytes => (Except.ok (), ⟨(new_path, bytes) :: fs.files⟩)

/-! ### Task tree (`tasks.rs`) -/

/-- `struct TaskNodeMetadata` (`tasks.rs` lines 22-27). -/
structure TaskNodeMetadata where
  is_task : Bool
  work_dir_name : Str
  output_dir_name : Str
deriving DecidableEq

/-- `struct TaskTreeNode` (`tasks.rs` lines 30-36). -/
inductive TaskTreeNode where
  | mk : Str → Str → TaskNodeMetadata → List TaskTreeNode → TaskTreeNode

/-- The `name` field of a `TaskTreeNode`. -/
def TaskTreeNode.name : TaskTreeNode → Str
  | .mk n _ _ _ => n

/-- The `path` field of a `TaskTreeNode`. -/
def TaskTreeNode.path : TaskTreeNode → Str
  | .mk _ p _ _ => p

/-- The `metadata` field of a `TaskTreeNode`. -/
def TaskTreeNode.metadata : TaskTreeNode → TaskNodeMetadata
  | .mk _ _ m _ => m

/-- The `children` field of a `TaskTreeNode`. -/
def TaskTreeNode.children : TaskTreeNode → List TaskTreeNode
  | .mk _ _ _ c => c

/-- A directory subtree on disk, as seen by the walker: an entry is either a
plain file or a directory with a readability flag (`fs::read_dir` succeeds
iff the flag is set; an unreadable directory is modelled as fully
inaccessible, so probing a child path inside it reports absent). -/
inductive FsNode where
  | file : Str → FsNode
  | dir : Str → Bool → List FsNode → FsNode

/-- The on-disk name of an entry. -/
def FsNode.name : FsNode → Str
  | .file n => n
  | .dir n _ _ => n

/-- `TASK_FILE_NAME` (`tasks.rs` line 14). -/
def taskFileName : Str := "task.yaml".toList

/-- The `check_for_task.exists()` probe of `TaskTreeNode::from_path`: true
iff the directory has an entry named `task.yaml` (`Path::exists` is satisfied
by a file or a directory of that name). -/
def hasTaskMarker (children : List FsNode) : Bool :=
  children.any (fun c => c.name == taskFileName)

mutual

/-- `TaskTreeNode::from_path` (`tasks.rs` lines 40-89) on the subtree rooted
at `node`, whose on-disk path is `p`.  A directory carrying the task marker
becomes a leaf task node without its listing being read; otherwise the
directory is listed (failing fast if it is unreadable) and every child
directory is walked recursively, the first failing child aborting the walk. -/
def TaskTreeNode.from_path (wd od p : Str) : FsNode → Except IoErr TaskTreeNode
  | .file _ => Except.error (IoErr.readDirFailed p)
  | .dir _ readable children =>
    if readable && hasTaskMarker children then
      Except.ok (TaskTreeNode.mk (fileName p) p ⟨true, wd, od⟩ [])
    else if readable then
      match TaskTreeNode.from_path_children wd od p children with
      | Except.ok cs => Except.ok (TaskTreeNode.mk (fileName p) p ⟨false, wd, od⟩ cs)
      | Except.error e => Except.error e
    else Except.error (IoErr.readDirFailed p)

/-- The child loop of `TaskTreeNode::from_path` (`tasks.rs` lines 70-86):
file entries are skipped, directory entries are walked recursively, and the
first error aborts the loop. -/
def TaskTreeNode.from_path_children (wd od p : Str) :
    List FsNode → Except IoErr (List TaskTreeNode)
  | [] => Except.ok []
  | FsNode.file _ :: rest => TaskTreeNode.from_path_children wd od p rest
  | FsNode.dir n r cs :: rest =>
    match TaskTreeNode.from_path wd od (pathPush p n) (FsNode.dir n r cs) with
    | Except.error e => Except.error e
    | Except.ok c =>
      match TaskTreeNode.from_path_children wd od p rest with
      | Except.error e => Except.error e
      | Except.ok tail => Except.ok (c :: tail)

end

/-- A directory entry in a task's work directory, as seen by
`find_workfiles`: either a subdirectory or a plain file. -/
inductive WorkEntry where
  | dirE : Str → WorkEntry
  | fileE : Str → WorkEntry

/-- The collection loop of `TaskTreeNode::find_workfiles` (`tasks.rs` lines
193-207): subdirectories are skipped, files whose names fail to decode are
skipped, decoded files are collected in listing order. -/
def collectWorkfiles (workPath : Str) : List WorkEntry → List File
  | [] => []
  | WorkEntry.dirE _ :: rest => collectWorkfiles workPath rest
  | WorkEntry.fileE n :: rest =>
    match File.from_path (pathPush workPath n) with
    | Except.ok f => f :: collectWorkfiles workPath rest
    | Except.error _ => collectWorkfiles workPath rest

/-- `TaskTreeNode::find_workfiles` (`tasks.rs` lines 183-210).  `taskPath` is
the node's path, `listing` is the result of `fs::read_dir` on
`taskPath/work_dir_name` (`none` when that directory cannot be read). -/
def TaskTreeNode.find_workfiles (taskPath work_dir_name : Str)
    (listing : Option (List WorkEntry)) : Except IoErr (List File) :=
  let work_dir := pathPush taskPath work_dir_name
  match listing with
  | none => Except.error (IoErr.readDirFailed work_dir)
  | some es => Except.ok (collectWorkfiles work_dir es)

/-! ### Projects (`projects.rs`) -/

/-- `struct Project` (`projects.rs` lines 12-22).  Field order matches the
Rust declaration; the derived `Ord` compares the fields in this order. -/
structure Project where
  name : Str
  name_sanitized : Str
  pipeline_dir_name : Str
  work_dir_name : Str
  dailies_dir_name : Str
  deliveries_dir_name : Str
  extra_dir_names : List Str
  work_sub_dirs : List Str
deriving DecidableEq

/-- The lexicographic key of the derived `Ord` on `Project`: the fields in
declaration order, compared left to right (`#[derive(PartialOrd, Ord)]`).
Rust `String` and `Vec<String>` both compare lexicographically, matching the
`List` linear order. -/
def projKey (p : Project) :
    Str ×ₗ (Str ×ₗ (Str ×ₗ (Str ×ₗ (Str ×ₗ (Str ×ₗ (List Str ×ₗ List Str)))))) :=
  toLex (p.name, toLex (p.name_sanitized, toLex (p.pipeline_dir_name,
    toLex (p.work_dir_name, toLex (p.dailies_dir_name,
      toLex (p.deliveries_dir_name, toLex (p.extra_dir_names, p.work_sub_dirs)))))))

/-- The derived total order on `Project` (`projects.rs` line 12). -/
def projLE (a b : Project) : Prop := projKey a ≤ projKey b

instance : DecidableRel projLE :=
  fun a b => inferInstanceAs (Decidable (projKey a ≤ projKey b))

instance : IsTotal Project projLE :=
  ⟨fun a b => le_total (projKey a) (projKey b)⟩

instance : IsTrans Project projLE :=
  ⟨fun _ _ _ h₁ h₂ => le_trans h₁ h₂⟩

/-- An immediate child of the projects root, as seen by `find_projects`:
either it holds a descriptor file `project.yaml` that deserialises to a
`Project`, or it holds a descriptor that fails to deserialise, or it holds
no descriptor at all (this also covers plain-file children, whose probed
descriptor path never exists). -/
inductive ProjEntry where
  | withProject : Str → Project → ProjEntry
  | withBadDescriptor : Str → ProjEntry
  | plain : Str → ProjEntry

/-- The collection loop of `Project::find_projects` (`projects.rs` lines
67-83): children without a readable, deserialisable descriptor are skipped,
the rest contribute their descriptor's `Project` in listing order. -/
def collectProjects : List ProjEntry → List Project
  | [] => []
  | ProjEntry.withProject _ p :: rest => p :: collectProjects rest
  | ProjEntry.withBadDescriptor _ :: rest => collectProjects rest
  | ProjEntry.plain _ :: rest => collectProjects rest

/-- `Project::find_projects` (`projects.rs` lines 56-87).  `listing` is the
result of `fs::read_dir` on the projects root (`none` when the root cannot
be read).  The collected projects are sorted (`projects.sort()`); Rust's
stable sort and `List.insertionSort` agree on every input because both
return the sorted stable permutation. -/
def Project.find_projects (projects_dir : Str)
    (listing : Option (List ProjEntry)) : Except IoErr (List Project) :=
  match listing with
  | none => Except.error (IoErr.readDirFailed projects_dir)
  | some entries => Except.ok (List.insertionSort projLE (collectProjects entries))

/-! ### Dcc and `make_filename` (`workfiles.rs` lines 159-171, 213-219) -/

/-- `struct Dcc` (`workfiles.rs` lines 214-219). -/
structure Dcc where
  name : Str
  extension : Str
  template_path : Str
deriving DecidableEq

/-- `File::make_filename` (`workfiles.rs` lines 159-171):
`"{}_{}_{}_v001{}"` with the project's sanitised name, the task name and the
given logical name when that name is non-empty, and `"{}_{}_v001{}"`
otherwise. -/
def File.make_filename (name : Str) (task : TaskTreeNode) (project : Project)
    (dcc : Dcc) : Str :=
  if name.length > 0 then
    project.name_sanitized ++ '_' :: (task.name ++ '_' :: (name ++
      ('_' :: 'v' :: '0' :: '0' :: '1' :: dcc.extension)))
  else
    project.name_sanitized ++ '_' :: (task.name ++
      ('_' :: 'v' :: '0' :: '0' :: '1' :: dcc.extension))

/-! ### The derived order on `File` and the app-level listing (`app.rs`) -/

/-- The lexicographic key of the derived `Ord` on `File`
(`workfiles.rs` line 11): the fields in declaration order
(name, path, extension, version).  `PathBuf` compares by components, hence
the `splitPath` key for the `path` field. -/
def fileKey (f : File) : Str ×ₗ (List Str ×ₗ (Str ×ₗ Nat)) :=
  toLex (f.name, toLex (splitPath f.path, toLex (f.extension, f.version)))

/-- The derived total order on `File` (`workfiles.rs` line 11). -/
def fileLE (a b : File) : Prop := fileKey a ≤ fileKey b

instance : DecidableRel fileLE :=
  fun a b => inferInstanceAs (Decidable (fileKey a ≤ fileKey b))

instance : IsTotal File fileLE :=
  ⟨fun a b => le_total (fileKey a) (fileKey b)⟩

instance : IsTrans File fileLE :=
  ⟨fun _ _ _ h₁ h₂ => le_trans h₁ h₂⟩

/-- The order the specification ascribes to `File`, following its words:
"by (name, extension, version) ascending" — introduced only to be compared
with the derived order `fileLE` actually implemented by the code. -/
def fileLEspec (a b : File) : Prop :=
  toLex (a.name, toLex (a.extension, a.version)) ≤
    toLex (b.name, toLex (b.extension, b.version))

instance : DecidableRel fileLEspec :=
  fun a b => inferInstanceAs (Decidable (toLex (a.name, toLex (a.extension, a.version)) ≤
    toLex (b.name, toLex (b.extension, b.version))))

/-- `Rclamp::filter_files` (`app.rs` lines 249-251): drop the files whose
extension is in the ignore list. -/
def filter_files (files : List File) (ignore_extensions : List Str) : List File :=
  files.filter (fun f => ¬ ignore_extensions.contains f.extension)

/-- The file listing built by `Rclamp::set_current_task` (`app.rs` lines
243-246): filter, sort ascending by the derived order, then reverse for a
latest-first display. -/
def displayFiles (files : List File) (ignore_extensions : List Str) : List File :=
  (List.insertionSort fileLE (filter_files files ignore_extensions)).reverse

/-! ## Helper lemmas -/

/-- The workfile-collection loop is a `filterMap` over the listing. -/
theorem collectWorkfiles_eq_filterMap (wp : Str) (es : List WorkEntry) :
    collectWorkfiles wp es = es.filterMap (fun e =>
      match e with
      | WorkEntry.dirE _ => none
      | WorkEntry.fileE n => (File.from_path (pathPush wp n)).toOption) := by
  induction es with
  | nil => rfl
  | cons e rest ih =>
    cases e with
    | dirE n => simpa [collectWorkfiles] using ih
    | fileE n =>
      cases h : File.from_path (pathPush wp n) with
      | ok f => simp [collectWorkfiles, h, ih, Except.toOption]
      | error msg => simp [collectWorkfiles, h, ih, Except.toOption]

/-- The project-collection loop is a `filterMap` over the listing. -/
theorem collectProjects_eq_filterMap (es : List ProjEntry) :
    collectProjects es = es.filterMap (fun e =>
      match e with
      | ProjEntry.withProject _ p => some p
      | ProjEntry.withBadDescriptor _ => none
      | ProjEntry.plain _ => none) := by
  induction es with
  | nil => rfl
  | cons e rest ih => cases e <;> simp [collectProjects, ih]

/-- An unreadable directory makes the walk fail with the read error at its
path, whatever the directory contains. -/
theorem from_path_unreadable (wd od q nm : Str) (cs : List FsNode) :
    TaskTreeNode.from_path wd od q (FsNode.dir nm false cs) =
      Except.error (IoErr.readDirFailed q) := by
  simp [TaskTreeNode.from_path]

/-- The child loop of the walk fails as soon as some child directory is
unreadable. -/
theorem from_path_children_err (wd od p cn : Str) (ccs : List FsNode)
    (l : List FsNode) (hc : FsNode.dir cn false ccs ∈ l) :
    ∃ e, TaskTreeNode.from_path_children wd od p l = Except.error e := by
  induction l with
  | nil => cases hc
  | cons hd rest ih =>
    cases hd with
    | file n =>
      have hmem : FsNode.dir cn false ccs ∈ rest := by
        rcases List.mem_cons.mp hc with h | h
        · exact absurd h (by simp)
        · exact h
      obtain ⟨e, he⟩ := ih hmem
      exact ⟨e, by simpa [TaskTreeNode.from_path_children] using he⟩
    | dir n r cs =>
      cases r with
      | false =>
        refine ⟨IoErr.readDirFailed (pathPush p n), ?_⟩
        simp [TaskTreeNode.from_path_children, from_path_unreadable]
      | true =>
        have hmem : FsNode.dir cn false ccs ∈ rest := by
          rcases List.mem_cons.mp hc with h | h
          · exact absurd h (by simp)
          · exact h
        obtain ⟨e, he⟩ := ih hmem
        cases hhd : TaskTreeNode.from_path wd od (pathPush p n) (FsNode.dir n true cs) with
        | error e' => exact ⟨e', by simp [TaskTreeNode.from_path_children, hhd]⟩
        | ok c => exact ⟨e, by simp [TaskTreeNode.from_path_children, hhd, he]⟩

/-! ## Claims -/

/-- C7 (confirmed): for every logical name, task, project and dcc, the
filename computed by `File::make_filename` is
`{sanitized}_{task}_{name}_v001{ext}` for a non-empty logical name and
`{sanitized}_{task}_v001{ext}` for the empty one; the two filenames are
distinct and both end in `_v001{ext}`. -/
theorem make_filename_shapes (n : Str) (t : TaskTreeNode) (pr : Project)
    (d : Dcc) (hn : n ≠ []) :
    File.make_filename n t pr d =
      pr.name_sanitized ++ '_' :: (t.name ++ '_' :: (n ++
        ('_' :: 'v' :: '0' :: '0' :: '1' :: d.extension))) ∧
    File.make_filename [] t pr d =
      pr.name_sanitized ++ '_' :: (t.name ++
        ('_' :: 'v' :: '0' :: '0' :: '1' :: d.extension)) ∧
    File.make_filename n t pr d ≠ File.make_filename [] t pr d ∧
    (∃ a, File.make_filename n t pr d =
      a ++ ('_' :: 'v' :: '0' :: '0' :: '1' :: d.extension)) ∧
    (∃ b, File.make_filename [] t pr d =
      b ++ ('_' :: 'v' :: '0' :: '0' :: '1' :: d.extension)) := by
  have hlen : 0 < n.length := List.length_pos.mpr hn
  have h1 : File.make_filename n t pr d =
      pr.name_sanitized ++ '_' :: (t.name ++ '_' :: (n ++
        ('_' :: 'v' :: '0' :: '0' :: '1' :: d.extension))) := by
    simp [File.make_filename, hlen]
  have h2 : File.make_filename [] t pr d =
      pr.name_sanitized ++ '_' :: (t.name ++
        ('_' :: 'v' :: '0' :: '0' :: '1' :: d.extension)) := by
    simp [File.make_filename]
  refine ⟨h1, h2, ?_, ?_, ?_⟩
  · intro h
    rw [h1, h2] at h
    apply_fun List.length at h
    simp [List.length_append] at h
    omega
  · exact ⟨pr.name_sanitized ++ '_' :: (t.name ++ '_' :: n), by rw [h1]; simp⟩
  · exact ⟨pr.name_sanitized ++ '_' :: t.name, by rw [h2]; simp⟩

/-- Witness for C7 at a concrete input (`"layout"` versus the empty name). -/
theorem make_filename_shapes_witness :
    "layout".toList ≠ [] ∧
    File.make_filename "layout".toList
        (TaskTreeNode.mk "shot010".toList "w/shot010".toList ⟨true, "01_work".toList, "02_output".toList⟩ [])
        ⟨"proj".toList, "proj".toList, "p".toList, "w".toList, "d".toList, "del".toList, [], []⟩
        ⟨"nuke".toList, ".nk".toList, "t/template.nk".toList⟩ ≠
      File.make_filename []
        (TaskTreeNode.mk "shot010".toList "w/shot010".toList ⟨true, "01_work".toList, "02_output".toList⟩ [])
        ⟨"proj".toList, "proj".toList, "p".toList, "w".toList, "d".toList, "del".toList, [], []⟩
        ⟨"nuke".toList, ".nk".toList, "t/template.nk".toList⟩ :=
  ⟨by decide,
    (make_filename_shapes "layout".toList
      (TaskTreeNode.mk "shot010".toList "w/shot010".toList ⟨true, "01_work".toList, "02_output".toList⟩ [])
      ⟨"proj".toList, "proj".toList, "p".toList, "w".toList, "d".toList, "del".toList, [], []⟩
      ⟨"nuke".toList, ".nk".toList, "t/template.nk".toList⟩ (by decide)).2.2.1⟩

/-- C10 (confirmed): on a readable work directory, `find_workfiles` returns
`Ok` regardless of the listing's content; subdirectories and files whose
names fail to decode are silently skipped, and the result is exactly the
successfully decoded files in listing order. -/
theorem find_workfiles_skips_undecodable (taskPath wdn : Str)
    (es : List WorkEntry) :
    TaskTreeNode.find_workfiles taskPath wdn (some es) =
      Except.ok (es.filterMap (fun e =>
        match e with
        | WorkEntry.dirE _ => none
        | WorkEntry.fileE n =>
          (File.from_path (pathPush (pathPush taskPath wdn) n)).toOption)) := by
  simp [TaskTreeNode.find_workfiles, collectWorkfiles_eq_filterMap]

/-- C8 (confirmed): on a readable projects root, `find_projects` returns an
`Ok` list holding exactly one `Project` per child whose descriptor
deserialises (the empty root yielding the empty list), sorted by the derived
order on `Project` (name first, then the remaining fields). -/
theorem find_projects_ok_sorted (dir : Str) (es : List ProjEntry) :
    ∃ l, Project.find_projects dir (some es) = Except.ok l ∧
      List.Perm l (es.filterMap (fun e =>
        match e with
        | ProjEntry.withProject _ p => some p
        | ProjEntry.withBadDescriptor _ => none
        | ProjEntry.plain _ => none)) ∧
      List.Sorted projLE l ∧
      (es = [] → l = []) := by
  refine ⟨List.insertionSort projLE (collectProjects es), rfl, ?_, ?_, ?_⟩
  · rw [← collectProjects_eq_filterMap]
    exact List.perm_insertionSort projLE (collectProjects es)
  · exact List.sorted_insertionSort projLE (collectProjects es)
  · rintro rfl
    rfl

/-- C6 (confirmed): a directory carrying the `task.yaml` marker becomes an
immediate task leaf with no children, whatever entries (including
subdirectories) it contains — its listing is never read. -/
theorem task_marker_gives_leaf (wd od p nm : Str) (children : List FsNode)
    (hm : hasTaskMarker children = true) :
    TaskTreeNode.from_path wd od p (FsNode.dir nm true children) =
      Except.ok (TaskTreeNode.mk (fileName p) p ⟨true, wd, od⟩ []) := by
  simp [TaskTreeNode.from_path, hm]

/-- Witness for C6: a marked directory that also contains a subdirectory
still becomes a childless leaf. -/
theorem task_marker_gives_leaf_witness :
    hasTaskMarker [FsNode.file "task.yaml".toList, FsNode.dir "sub".toList true []] = true ∧
    TaskTreeNode.from_path "01_work".toList "02_output".toList "root/shotA".toList
        (FsNode.dir "shotA".toList true
          [FsNode.file "task.yaml".toList, FsNode.dir "sub".toList true []]) =
      Except.ok (TaskTreeNode.mk (fileName "root/shotA".toList) "root/shotA".toList
        ⟨true, "01_work".toList, "02_output".toList⟩ []) :=
  ⟨by decide,
    task_marker_gives_leaf "01_work".toList "02_output".toList "root/shotA".toList
      "shotA".toList [FsNode.file "task.yaml".toList, FsNode.dir "sub".toList true []]
      (by decide)⟩

/-- C5 (confirmed): walking a readable, unmarked directory one of whose
child directories is unreadable aborts the whole build with an error — no
partial tree is returned. -/
theorem unreadable_child_aborts (wd od p nm cn : Str)
    (children ccs : List FsNode) (hm : hasTaskMarker children = false)
    (hc : FsNode.dir cn false ccs ∈ children) :
    ∃ e, TaskTreeNode.from_path wd od p (FsNode.dir nm true children) =
      Except.error e := by
  obtain ⟨e, he⟩ := from_path_children_err wd od p cn ccs children hc
  refine ⟨e, ?_⟩
  simp [TaskTreeNode.from_path, hm, he]

/-- Witness for C5: a group directory with one unreadable child aborts. -/
theorem unreadable_child_aborts_witness :
    hasTaskMarker [FsNode.dir "bad".toList false []] = false ∧
    FsNode.dir "bad".toList false [] ∈ [FsNode.dir "bad".toList false []] ∧
    ∃ e, TaskTreeNode.from_path "01_work".toList "02_output".toList "root".toList
        (FsNode.dir "root".toList true [FsNode.dir "bad".toList false []]) =
      Except.error e :=
  ⟨by decide, by simp,
    unreadable_child_aborts "01_work".toList "02_output".toList "root".toList
      "root".toList "bad".toList [FsNode.dir "bad".toList false []] []
      (by decide) (by simp)⟩

/-- C3 (confirmed): when the incremented-version sibling path already exists,
`version_up` fails with the destination-collision error and returns the
filesystem unchanged — no copy is performed and nothing is overwritten. -/
theorem version_up_no_overwrite (fs : FS) (f : File) (par : Str)
    (hpar : parentOf f.path = some par)
    (hex : (fs.lookup (pathPush par
        (File.make_filename_from_self
          ⟨f.name, f.path, f.extension, f.version + 1⟩))).isSome = true) :
    File.version_up fs f =
      (Except.error (IoErr.other "File already exists!"), fs) := by
  obtain ⟨v, hv⟩ := Option.isSome_iff_exists.mp hex
  simp [File.version_up, hpar, hv]

/-- Witness for C3: versioning up `work/x_v001.nk` while `work/x_v002.nk`
already exists fails and leaves the filesystem untouched. -/
theorem version_up_no_overwrite_witness :
    parentOf "work/x_v001.nk".toList = some "work".toList ∧
    ((FS.mk [("work/x_v001.nk".toList, [7, 8]), ("work/x_v002.nk".toList, [9])]).lookup
      (pathPush "work".toList
        (File.make_filename_from_self
          ⟨"x".toList, "work/x_v001.nk".toList, "nk".toList, 1 + 1⟩))).isSome = true ∧
    File.version_up
        (FS.mk [("work/x_v001.nk".toList, [7, 8]), ("work/x_v002.nk".toList, [9])])
        ⟨"x".toList, "work/x_v001.nk".toList, "nk".toList, 1⟩ =
      (Except.error (IoErr.other "File already exists!"),
        FS.mk [("work/x_v001.nk".toList, [7, 8]), ("work/x_v002.nk".toList, [9])]) :=
  ⟨by decide, by decide,
    version_up_no_overwrite
      (FS.mk [("work/x_v001.nk".toList, [7, 8]), ("work/x_v002.nk".toList, [9])])
      ⟨"x".toList, "work/x_v001.nk".toList, "nk".toList, 1⟩
      "work".toList (by decide) (by decide)⟩

/-- C4 counterexample: `version_up` does not return a new `File` record; its
Rust return type is `Result<(), io::Error>`, so on success the returned
value is the unit value `()` (the new record exists only on disk). -/
theorem version_up_success_payload_is_unit :
    File.version_up (FS.mk [("work/x_v001.nk".toList, [7, 8])])
        ⟨"x".toList, "work/x_v001.nk".toList, "nk".toList, 1⟩ =
      (Except.ok (),
        FS.mk [("work/x_v002.nk".toList, [7, 8]), ("work/x_v001.nk".toList, [7, 8])]) := by
  decide

/-- C4 (corrected): when `version_up` succeeds it bumps the version to
`version + 1`, re-encodes the filename from the same basename and extension,
and copies the source bytes verbatim to the sibling destination, leaving
every other path untouched — but it returns `Ok(())`, not the new `File`
record. -/
theorem version_up_success_shape (fs : FS) (f : File)
    (h : (File.version_up fs f).1 = Except.ok ()) :
    ∃ par bytes np,
      parentOf f.path = some par ∧
      np = pathPush par
        (File.make_filename_from_self ⟨f.name, f.path, f.extension, f.version + 1⟩) ∧
      fs.lookup f.path = some bytes ∧
      fs.lookup np = none ∧
      (File.version_up fs f).2 = FS.mk ((np, bytes) :: fs.files) ∧
      FS.lookup (File.version_up fs f).2 np = some bytes ∧
      (∀ q, q ≠ np → FS.lookup (File.version_up fs f).2 q = fs.lookup q) := by
  cases hpar : parentOf f.path with
  | none => simp [File.version_up, hpar] at h
  | some par =>
    cases hnp : fs.lookup (pathPush par
        (File.make_filename_from_self ⟨f.name, f.path, f.extension, f.version + 1⟩)) with
    | some v =>
      exfalso
      simp [File.version_up, hpar] at h
      rw [show ({ f with version := f.version + 1 } : File) =
        ⟨f.name, f.path, f.extension, f.version + 1⟩ from rfl, hnp] at h
      simp at h
    | none =>
      cases hsrc : fs.lookup f.path with
      | none =>
        exfalso
        simp [File.version_up, hpar] at h
        rw [show ({ f with version := f.version + 1 } : File) =
          ⟨f.name, f.path, f.extension, f.version + 1⟩ from rfl, hnp, hsrc] at h
        simp at h
      | some bytes =>
        have hred : File.version_up fs f = (Except.ok (),
            FS.mk ((pathPush par (File.make_filename_from_self
              ⟨f.name, f.path, f.extension, f.version + 1⟩), bytes) :: fs.files)) := by
          simp only [File.version_up, hpar, hnp, hsrc]
        refine ⟨par, bytes,
          pathPush par (File.make_filename_from_self
            ⟨f.name, f.path, f.extension, f.version + 1⟩),
          rfl, rfl, rfl, hnp, ?_, ?_, ?_⟩
        · rw [hred]
        · rw [hred]
          simp [FS.lookup, List.lookup]
        · intro q hq
          rw [hred]
          simp [FS.lookup, List.lookup, beq_eq_false_iff_ne.mpr hq]

/-- Witness for C4: a successful `version_up` of `work/x_v001.nk`. -/
theorem version_up_success_shape_witness :
    (File.version_up (FS.mk [("work/x_v001.nk".toList, [7, 8])])
        ⟨"x".toList, "work/x_v001.nk".toList, "nk".toList, 1⟩).1 = Except.ok () ∧
    ∃ par bytes np,
      parentOf ("work/x_v001.nk".toList : Str) = some par ∧
      np = pathPush par
        (File.make_filename_from_self
          ⟨"x".toList, "work/x_v001.nk".toList, "nk".toList, 1 + 1⟩) ∧
      (FS.mk [("work/x_v001.nk".toList, [7, 8])]).lookup "work/x_v001.nk".toList = some bytes ∧
      (FS.mk [("work/x_v001.nk".toList, [7, 8])]).lookup np = none ∧
      (File.version_up (FS.mk [("work/x_v001.nk".toList, [7, 8])])
          ⟨"x".toList, "work/x_v001.nk".toList, "nk".toList, 1⟩).2 =
        FS.mk ((np, bytes) :: [("work/x_v001.nk".toList, [7, 8])]) ∧
      FS.lookup (File.version_up (FS.mk [("work/x_v001.nk".toList, [7, 8])])
          ⟨"x".toList, "work/x_v001.nk".toList, "nk".toList, 1⟩).2 np = some bytes ∧
      (∀ q, q ≠ np →
        FS.lookup (File.version_up (FS.mk [("work/x_v001.nk".toList, [7, 8])])
            ⟨"x".toList, "work/x_v001.nk".toList, "nk".toList, 1⟩).2 q =
          (FS.mk [("work/x_v001.nk".toList, [7, 8])]).lookup q) :=
  ⟨by decide,
    version_up_success_shape (FS.mk [("work/x_v001.nk".toList, [7, 8])])
      ⟨"x".toList, "work/x_v001.nk".toList, "nk".toList, 1⟩ (by decide)⟩

/-- C2 counterexample: the stem of `_va.nk` has only three characters, yet
`from_path` decodes it successfully (empty basename, version defaulted to 1)
instead of returning a typed failure; likewise the check never requires the
three trailing characters to be digits. -/
theorem short_stem_decodes :
    (fileStemOf "_va.nk".toList).length = 3 ∧
    File.from_path "_va.nk".toList =
      Except.ok ⟨[], "_va.nk".toList, "nk".toList, 1⟩ ∧
    File.from_path "abc_vxyz.nk".toList =
      Except.ok ⟨"abc".toList, "abc_vxyz.nk".toList, "nk".toList, 1⟩ :=
  ⟨by decide, by decide, by decide⟩

/-- C2 (corrected): decoding is total (never crashes at the character level)
and returns a typed failure exactly when the trailing segment of the
extension-stripped stem (its last five characters when it is longer than
five, otherwise the whole stem) does not begin with the two characters
`_v`; in particular stems shorter than five characters that begin with `_v`
decode successfully, and trailing segments whose last three characters are
not digits decode successfully with the version defaulting to 1. -/
theorem from_path_ok_iff (p : Str) :
    (∃ f, File.from_path p = Except.ok f) ↔
      ((fileStemOf p).drop ((fileStemOf p).length - 5)).take 2 = ['_', 'v'] := by
  have hoff : (if (fileStemOf p).length > 5 then (fileStemOf p).length - 5 else 0)
      = (fileStemOf p).length - 5 := by
    split <;> omega
  have c1 : (('0' : Char) == '_') = false := rfl
  have c2 : (('0' : Char) == 'v') = false := rfl
  simp only [File.from_path, hoff]
  rcases hvs : (fileStemOf p).drop ((fileStemOf p).length - 5) with _ | ⟨a, _ | ⟨b, rest⟩⟩
  · simp [c1]
  · simp [List.getD, c2]
  · simp only [List.getD_cons_zero, List.getD_cons_succ]
    by_cases ha : a = '_' ∧ b = 'v'
    · obtain ⟨ha1, ha2⟩ := ha
      subst ha1
      subst ha2
      simp
    · have hcond : ((a == '_') && (b == 'v')) = false := by
        rcases Decidable.not_and_iff_or_not.mp ha with h | h <;>
          simp [beq_eq_false_iff_ne.mpr h]
      simp only [hcond, Bool.false_eq_true, if_false]
      constructor
      · rintro ⟨f, hf⟩
        simp at hf
      · intro h
        simp only [List.take_succ_cons, List.take_zero, List.cons.injEq, and_true] at h
        exact absurd ⟨h.1, h.2⟩ ha

/-- C9 counterexample: two workfile records with equal names whose derived
order disagrees with the claimed (name, extension, version) order — the
derived `Ord` on `File` compares the `path` field before `extension`, and
the path comparison wins. -/
theorem file_order_compares_path_first :
    fileLE ⟨"a".toList, "d/a_v001.b".toList, "b".toList, 1⟩
      ⟨"a".toList, "d/a_v002.a".toList, "a".toList, 2⟩ ∧
    ¬ fileLE ⟨"a".toList, "d/a_v002.a".toList, "a".toList, 2⟩
      ⟨"a".toList, "d/a_v001.b".toList, "b".toList, 1⟩ ∧
    fileLEspec ⟨"a".toList, "d/a_v002.a".toList, "a".toList, 2⟩
      ⟨"a".toList, "d/a_v001.b".toList, "b".toList, 1⟩ ∧
    ¬ fileLEspec ⟨"a".toList, "d/a_v001.b".toList, "b".toList, 1⟩
      ⟨"a".toList, "d/a_v002.a".toList, "a".toList, 2⟩ :=
  ⟨by decide, by decide, by decide, by decide⟩

/-- C9 (corrected): the derived total order on `File` compares
(name, path, extension, version) lexicographically — the path, compared by
components, comes before the extension — and the latest-first listing of
`set_current_task` is exactly the reversal of a list sorted by this order
(a permutation of the retained files, sorted ascending before reversal). -/
theorem fileLE_lex_and_listing :
    (∀ a b : File, fileLE a b ↔
      (a.name < b.name ∨ (a.name = b.name ∧
        (splitPath a.path < splitPath b.path ∨ (splitPath a.path = splitPath b.path ∧
          (a.extension < b.extension ∨ (a.extension = b.extension ∧
            a.version ≤ b.version))))))) ∧
    (∀ files ignore, List.Sorted fileLE (displayFiles files ignore).reverse ∧
      List.Perm (displayFiles files ignore) (filter_files files ignore)) := by
  constructor
  · intro a b
    simp only [fileLE, fileKey, Prod.Lex.le_iff]
  · intro files ignore
    constructor
    · unfold displayFiles
      rw [List.reverse_reverse]
      exact List.sorted_insertionSort fileLE _
    · unfold displayFiles
      exact (List.reverse_perm _).trans (List.perm_insertionSort fileLE _)

/-! ## Helper lemmas for the round-trip claim -/

/-- The rendered digit of a value below ten has the expected code point. -/
theorem digitChar_toNat : ∀ d, d < 10 → (digitChar d).toNat = 48 + d := by
  decide

/-- The rendered digit of a value below ten is an ASCII digit. -/
theorem digitChar_isDigit : ∀ d, d < 10 → charIsDigit (digitChar d) = true := by
  decide

/-- An ASCII digit is neither a separator, nor a dot, nor a plus sign. -/
theorem charIsDigit_ne (c : Char) (h : charIsDigit c = true) :
    c ≠ '/' ∧ c ≠ '.' ∧ c ≠ '+' := by
  unfold charIsDigit at h
  simp only [Bool.and_eq_true, decide_eq_true_eq] at h
  refine ⟨?_, ?_, ?_⟩ <;> rintro rfl <;> revert h <;> decide

/-- One digit of fuel suffices for a one-digit value. -/
theorem natDigitsAux_small (n fuel : Nat) (h : n < 10) (hf : 1 ≤ fuel) :
    natDigitsAux n fuel = [digitChar n] := by
  cases fuel with
  | zero => omega
  | succ f => simp [natDigitsAux, h]

/-- Two digits of fuel suffice for a two-digit value. -/
theorem natDigitsAux_mid (n fuel : Nat) (h1 : 10 ≤ n) (h2 : n < 100)
    (hf : 2 ≤ fuel) :
    natDigitsAux n fuel = [digitChar (n / 10), digitChar (n % 10)] := by
  cases fuel with
  | zero => omega
  | succ f =>
    have hn : ¬ n < 10 := by omega
    simp only [natDigitsAux, hn, if_false]
    rw [natDigitsAux_small (n / 10) f (by omega) (by omega)]
    rfl

/-- Three digits of fuel suffice for a three-digit value. -/
theorem natDigitsAux_big (n fuel : Nat) (h1 : 100 ≤ n) (h2 : n < 1000)
    (hf : 3 ≤ fuel) :
    natDigitsAux n fuel =
      [digitChar (n / 100), digitChar (n / 10 % 10), digitChar (n % 10)] := by
  cases fuel with
  | zero => omega
  | succ f =>
    have hn : ¬ n < 10 := by omega
    simp only [natDigitsAux, hn, if_false]
    rw [natDigitsAux_mid (n / 10) f (by omega) (by omega) (by omega)]
    have : n / 10 / 10 = n / 100 := by
      rw [Nat.div_div_eq_div_mul]
    rw [this]
    rfl

/-- For versions up to 999, `{:03}` renders exactly the three decimal
digits. -/
theorem pad3_eq_digits (v : Nat) (hv : v ≤ 999) :
    pad3 v = [digitChar (v / 100), digitChar (v / 10 % 10), digitChar (v % 10)] := by
  by_cases ha : v < 10
  · have e1 : v / 100 = 0 := by omega
    have e2 : v / 10 % 10 = 0 := by omega
    have e3 : v % 10 = v := by omega
    rw [e1, e2, e3]
    simp [pad3, natDigits, natDigitsAux_small v (v + 1) ha (by omega)]
    rfl
  · by_cases hb : v < 100
    · have e1 : v / 100 = 0 := by omega
      have e2 : v / 10 % 10 = v / 10 := by omega
      rw [e1, e2]
      simp [pad3, natDigits, natDigitsAux_mid v (v + 1) (by omega) hb (by omega)]
      rfl
    · simp [pad3, natDigits,
        natDigitsAux_big v (v + 1) (by omega) (by omega) (by omega)]

/-- Parsing the three-digit rendering of `v ≤ 999` recovers `v`. -/
theorem parseU32_pad3 (v : Nat) (hv : v ≤ 999) : parseU32 (pad3 v) = some v := by
  rw [pad3_eq_digits v hv]
  have d1 : (digitChar (v / 100)).toNat = 48 + v / 100 := digitChar_toNat _ (by omega)
  have d2 : (digitChar (v / 10 % 10)).toNat = 48 + v / 10 % 10 := digitChar_toNat _ (by omega)
  have d3 : (digitChar (v % 10)).toNat = 48 + v % 10 := digitChar_toNat _ (by omega)
  have i1 : charIsDigit (digitChar (v / 100)) = true := digitChar_isDigit _ (by omega)
  have i2 : charIsDigit (digitChar (v / 10 % 10)) = true := digitChar_isDigit _ (by omega)
  have i3 : charIsDigit (digitChar (v % 10)) = true := digitChar_isDigit _ (by omega)
  have hplus : ¬ (digitChar (v / 100) = '+') := (charIsDigit_ne _ i1).2.2
  simp only [parseU32, hplus, if_false]
  have hcond : (digitChar (v / 100) :: digitChar (v / 10 % 10) :: [digitChar (v % 10)] ≠ [] ∧
      (digitChar (v / 100) :: digitChar (v / 10 % 10) :: [digitChar (v % 10)]).all charIsDigit) := by
    refine ⟨by simp, ?_⟩
    simp [List.all_cons, i1, i2, i3]
  rw [if_pos hcond]
  have hval : digitsToNat
      (digitChar (v / 100) :: digitChar (v / 10 % 10) :: [digitChar (v % 10)]) = v := by
    simp only [digitsToNat, List.foldl_cons, List.foldl_nil, d1, d2, d3]
    omega
  rw [hval]
  rw [if_pos (by norm_num; omega)]

/-- `takeWhile` swallows a satisfying prefix and stops at a failing head. -/
theorem takeWhile_append_cons {q : Char → Bool} {l r : Str} {c : Char}
    (hl : ∀ x ∈ l, q x = true) (hc : q c = false) :
    (l ++ c :: r).takeWhile q = l := by
  induction l with
  | nil => simp [List.takeWhile_cons, hc]
  | cons a as ih =>
    have ha := hl a (List.mem_cons_self a as)
    simp only [List.cons_append, List.takeWhile_cons, ha, if_true]
    rw [ih (fun x hx => hl x (List.mem_cons_of_mem a hx))]

/-- A path without separators is its own file name. -/
theorem fileName_of_no_slash {e : Str} (h : '/' ∉ e) : fileName e = e := by
  have hall : ∀ x ∈ e.reverse, (fun c => c != '/') x = true := fun x hx =>
    bne_iff_ne.mpr (ne_of_mem_of_not_mem (List.mem_reverse.mp hx) h)
  rw [fileName, List.takeWhile_eq_self_iff.mpr hall, List.reverse_reverse]

/-- Splitting `s ++ "." ++ ext` at the last dot yields `(s, ext)` when the
extension holds no dot and the stem has at least two characters. -/
theorem splitFileAtDot_append {s ext : Str} (hs : 2 ≤ s.length)
    (he : '.' ∉ ext) :
    splitFileAtDot (s ++ '.' :: ext) = (s, some ext) := by
  have hne : ¬ (s ++ '.' :: ext = ['.', '.']) := by
    intro h
    apply_fun List.length at h
    simp [List.length_append] at h
    omega
  have hrev : (s ++ '.' :: ext).reverse = ext.reverse ++ '.' :: s.reverse := by
    simp
  have htw : ((s ++ '.' :: ext).reverse).takeWhile (fun c => c != '.') =
      ext.reverse := by
    rw [hrev]
    exact takeWhile_append_cons
      (fun x hx => bne_iff_ne.mpr
        (ne_of_mem_of_not_mem (List.mem_reverse.mp hx) he))
      (by rfl)
  have hlen : (s ++ '.' :: ext).length = s.length + 1 + ext.length := by
    simp [List.length_append]
    omega
  simp only [splitFileAtDot, hne, if_false, htw, List.length_reverse, hlen]
  have hc1 : ¬ (ext.length = s.length + 1 + ext.length) := by omega
  rw [if_neg hc1]
  have hi : s.length + 1 + ext.length - 1 - ext.length = s.length := by omega
  rw [hi, if_pos (by omega : 1 ≤ s.length)]
  have ht : List.take s.length (s ++ '.' :: ext) = s := List.take_left s ('.' :: ext)
  have hd : List.drop (s.length + 1) (s ++ '.' :: ext) = ext := by
    rw [show s ++ '.' :: ext = (s ++ ['.']) ++ ext by simp]
    exact List.drop_left' (by simp)
  rw [ht, hd]

/-- C1 counterexample: the round trip fails for a dotted extension
(`tar.gz`), for a basename holding a separator, and for an extension holding
a separator — decoding the encoded name either fails outright or returns a
different basename. -/
theorem decode_encode_fails_on_dotted_extension :
    File.from_path (File.make_filename_from_self
        ⟨"x".toList, [], "tar.gz".toList, 1⟩) =
      Except.error "Not a valid filename." ∧
    File.from_path (File.make_filename_from_self
        ⟨"a/b".toList, [], "nk".toList, 1⟩) =
      Except.ok ⟨"b".toList, "a/b_v001.nk".toList, "nk".toList, 1⟩ ∧
    File.from_path (File.make_filename_from_self
        ⟨"x".toList, [], "a/b".toList, 1⟩) =
      Except.error "Not a valid filename." :=
  ⟨by decide, by decide, by decide⟩

/-- C1 (corrected): encode-then-decode is the identity on
(basename, version, extension) for every version in `[0, 999]`, provided the
basename holds no path separator and the extension holds neither a dot nor a
path separator; in particular basename `shot010_comp`, version 1, extension
`nk` encodes to `shot010_comp_v001.nk` and decodes back exactly. -/
theorem decode_encode_roundtrip (nm ext : Str) (v : Nat)
    (h1 : '/' ∉ nm) (h2 : '.' ∉ ext) (h3 : '/' ∉ ext) (hv : v ≤ 999) :
    File.from_path (File.make_filename_from_self ⟨nm, [], ext, v⟩) =
      Except.ok ⟨nm, File.make_filename_from_self ⟨nm, [], ext, v⟩, ext, v⟩ := by
  have hpad : pad3 v =
      [digitChar (v / 100), digitChar (v / 10 % 10), digitChar (v % 10)] :=
    pad3_eq_digits v hv
  have hpadlen : (pad3 v).length = 3 := by rw [hpad]; rfl
  have hpad_digit : ∀ c ∈ pad3 v, charIsDigit c = true := by
    rw [hpad]
    intro c hc
    simp only [List.mem_cons, List.not_mem_nil, or_false] at hc
    rcases hc with rfl | rfl | rfl <;> exact digitChar_isDigit _ (by omega)
  have hestruct : File.make_filename_from_self ⟨nm, [], ext, v⟩ =
      (nm ++ '_' :: 'v' :: pad3 v) ++ '.' :: ext := by
    simp [File.make_filename_from_self, File.fmt_version]
  have hslen : (nm ++ '_' :: 'v' :: pad3 v).length = nm.length + 5 := by
    simp [List.length_append, hpadlen]
  have hnoslash : '/' ∉ (nm ++ '_' :: 'v' :: pad3 v) ++ '.' :: ext := by
    intro hmem
    rcases List.mem_append.mp hmem with hm | hm
    · rcases List.mem_append.mp hm with hm2 | hm2
      · exact h1 hm2
      · rcases List.mem_cons.mp hm2 with h | hm3
        · exact absurd h (by decide)
        · rcases List.mem_cons.mp hm3 with h | hm4
          · exact absurd h (by decide)
          · exact absurd rfl ((charIsDigit_ne _ (hpad_digit _ hm4)).1)
    · rcases List.mem_cons.mp hm with h | hm2
      · exact absurd h (by decide)
      · exact h3 hm2
  have hfn : fileName ((nm ++ '_' :: 'v' :: pad3 v) ++ '.' :: ext) =
      (nm ++ '_' :: 'v' :: pad3 v) ++ '.' :: ext :=
    fileName_of_no_slash hnoslash
  have hsplit : splitFileAtDot ((nm ++ '_' :: 'v' :: pad3 v) ++ '.' :: ext) =
      (nm ++ '_' :: 'v' :: pad3 v, some ext) :=
    splitFileAtDot_append (by rw [hslen]; omega) h2
  have hext : extensionOf ((nm ++ '_' :: 'v' :: pad3 v) ++ '.' :: ext) = ext := by
    simp only [extensionOf, hfn, hsplit, Option.getD_some]
  have hstem : fileStemOf ((nm ++ '_' :: 'v' :: pad3 v) ++ '.' :: ext) =
      nm ++ '_' :: 'v' :: pad3 v := by
    simp only [fileStemOf, hfn, hsplit]
  rw [hestruct]
  simp only [File.from_path, hext, hstem]
  have hoff : (if (nm ++ '_' :: 'v' :: pad3 v).length > 5 then
      (nm ++ '_' :: 'v' :: pad3 v).length - 5 else 0) = nm.length := by
    rw [hslen]
    split <;> omega
  rw [hoff]
  have hdrop : (nm ++ '_' :: 'v' :: pad3 v).drop nm.length = '_' :: 'v' :: pad3 v :=
    List.drop_left' rfl
  have htake : (nm ++ '_' :: 'v' :: pad3 v).take nm.length = nm :=
    List.take_left' rfl
  rw [hdrop, htake]
  simp only [List.getD_cons_zero, List.getD_cons_succ, beq_self_eq_true,
    Bool.and_self, if_true]
  simp only [List.drop_succ_cons, List.drop_zero]
  rw [parseU32_pad3 v hv]
  rfl

/-- Witness for C1: the spec's concrete case — basename `shot010_comp`,
version 1, extension `nk` encodes to `shot010_comp_v001.nk` and decodes back
to exactly the same triple. -/
theorem decode_encode_roundtrip_witness :
    ('/' ∉ "shot010_comp".toList) ∧ ('.' ∉ "nk".toList) ∧ ('/' ∉ "nk".toList) ∧
    (1 : Nat) ≤ 999 ∧
    File.make_filename_from_self ⟨"shot010_comp".toList, [], "nk".toList, 1⟩ =
      "shot010_comp_v001.nk".toList ∧
    File.from_path
        (File.make_filename_from_self ⟨"shot010_comp".toList, [], "nk".toList, 1⟩) =
      Except.ok ⟨"shot010_comp".toList,
        File.make_filename_from_self ⟨"shot010_comp".toList, [], "nk".toList, 1⟩,
        "nk".toList, 1⟩ :=
  ⟨by decide, by decide, by decide, by decide, by decide,
    decode_encode_roundtrip "shot010_comp".toList "nk".toList 1
      (by decide) (by decide) (by decide) (by decide)⟩
